import Mathlib

/-!
Verification of the karaoke filter-graph generator (src/karaoke.py).

The script is embedded shallowly: words are records of text and start/end
timestamps (rationals stand in for Python floats, whose arithmetic here is
only comparison and subtraction of exact decimal literals), the font metric
`font.getsize` is an arbitrary function `String → ℚ × ℚ`, and the fallible
parts of `main` (dict lookups, ffprobe, font loading, the JSON read) are
modelled in a second, `Except`-valued development further below.
-/

set_option autoImplicit false

namespace Karaoke

/-- A timed word as produced by the timing loader: the `word`, `start` and
`end` fields of a WhisperX word object.  `end` is a Lean keyword, hence
`end_`. -/
structure Word where
  word : String
  start : ℚ
  end_ : ℚ
deriving DecidableEq

/-- Text of a line buffer, as in `' '.join(w['word'] for w in curr)`. -/
def joinWords (ws : List Word) : String :=
  String.intercalate " " (ws.map Word.word)

/-- Test for `wd['word'].endswith(('.', '?', '!'))`.  Each suffix is a
single character, so `endswith` is exactly a last-character test. -/
def endsPunct (s : String) : Bool :=
  match s.data.getLast? with
  | some c => c = '.' || c = '?' || c = '!'
  | none => false

/-- Loop of `chunk_words` (src/karaoke.py lines 62-78) together with the
final flush (lines 79-80).  `curr` is the current line buffer; the word list
is consumed left to right.  The width check fires first; `curr' = curr ++
[wd]` is the buffer after the append, and on a width overflow the emitted
line is `curr[:-1]`, i.e. the old `curr`, while the rolled-back word starts
the next buffer. -/
def chunkLoop (font : String → ℚ × ℚ) (max_len : ℕ) (max_px_width : ℚ) :
    List Word → List Word → List (List Word)
  | curr, [] => if curr.isEmpty then [] else [curr]
  | curr, wd :: rest =>
    let curr' := curr ++ [wd]
    let line_width := (font (joinWords curr')).1
    if max_px_width < line_width ∧ 1 < curr'.length then
      curr :: chunkLoop font max_len max_px_width [wd] rest
    else if endsPunct wd.word ∨ max_len ≤ curr'.length then
      curr' :: chunkLoop font max_len max_px_width [] rest
    else
      chunkLoop font max_len max_px_width curr' rest

/-- Embedding of `chunk_words(words, max_len, max_px_width, font)`
(src/karaoke.py lines 61-81). -/
def chunk_words (words : List Word) (max_len : ℕ) (max_px_width : ℚ)
    (font : String → ℚ × ℚ) : List (List Word) :=
  chunkLoop font max_len max_px_width [] words

theorem chunkLoop_flatten (font : String → ℚ × ℚ) (max_len : ℕ) (max_px_width : ℚ) :
    ∀ (ws curr : List Word),
      (chunkLoop font max_len max_px_width curr ws).flatten = curr ++ ws := by
  intro ws
  induction ws with
  | nil =>
    intro curr
    by_cases h : curr.isEmpty
    · simp [chunkLoop, h, List.isEmpty_iff.mp h]
    · simp [chunkLoop, h]
  | cons wd rest ih =>
    intro curr
    rw [chunkLoop]
    by_cases h1 : max_px_width < (font (joinWords (curr ++ [wd]))).1 ∧ 1 < (curr ++ [wd]).length
    · simp only [if_pos h1, List.flatten_cons, ih]
      simp
    · rw [if_neg h1]
      by_cases h2 : endsPunct wd.word ∨ max_len ≤ (curr ++ [wd]).length
      · simp only [if_pos h2, List.flatten_cons, ih]
        simp
      · simp only [if_neg h2, ih]
        simp

/-- Deterministic stand-in font metric for concrete witnesses: every string
measures zero pixels wide, twenty high (no width split ever fires). -/
def zeroFont : String → ℚ × ℚ := fun _ => (0, 20)

/-- Stand-in font metric under which every string is 1000 pixels wide. -/
def bigFont : String → ℚ × ℚ := fun _ => (1000, 20)

def demoWords : List Word :=
  [⟨"Hello,", 0, 1/2⟩, ⟨"World", 1/2, 1⟩, ⟨"Now.", 1, 3/2⟩]

/-- C1: for every word list, every max word count ≥ 1, every max pixel width
and every text-metrics function, the lines returned by `chunk_words`,
concatenated in order, are exactly the input word list. -/
theorem chunk_words_concat (words : List Word) (max_len : ℕ) (max_px_width : ℚ)
    (font : String → ℚ × ℚ) (hmax : 1 ≤ max_len) :
    (chunk_words words max_len max_px_width font).flatten = words := by
  simpa using chunkLoop_flatten font max_len max_px_width words []

/-- Witness for C1 at a concrete three-word input. -/
theorem chunk_words_concat_witness :
    (chunk_words demoWords 5 200 zeroFont).flatten = demoWords :=
  chunk_words_concat demoWords 5 200 zeroFont (by decide)

theorem chunkLoop_ne_nil (font : String → ℚ × ℚ) (max_len : ℕ) (max_px_width : ℚ) :
    ∀ (ws curr : List Word), ∀ c ∈ chunkLoop font max_len max_px_width curr ws, c ≠ [] := by
  intro ws
  induction ws with
  | nil =>
    intro curr c hc
    by_cases h : curr.isEmpty
    · rw [chunkLoop, if_pos h] at hc
      exact absurd hc (List.not_mem_nil c)
    · rw [chunkLoop, if_neg h] at hc
      rw [List.mem_singleton] at hc
      subst hc
      exact fun hnil => h (by rw [hnil]; rfl)
  | cons wd rest ih =>
    intro curr c hc
    rw [chunkLoop] at hc
    by_cases h1 : max_px_width < (font (joinWords (curr ++ [wd]))).1 ∧ 1 < (curr ++ [wd]).length
    · rw [if_pos h1] at hc
      rcases List.mem_cons.mp hc with hcurr | hrec
      · subst hcurr
        have : 0 < c.length := by
          have := h1.2
          simp only [List.length_append, List.length_cons, List.length_nil] at this
          omega
        exact List.ne_nil_of_length_pos this
      · exact ih [wd] c hrec
    · rw [if_neg h1] at hc
      by_cases h2 : endsPunct wd.word ∨ max_len ≤ (curr ++ [wd]).length
      · rw [if_pos h2] at hc
        rcases List.mem_cons.mp hc with hcurr | hrec
        · subst hcurr
          exact List.append_ne_nil_of_right_ne_nil curr (by simp)
        · exact ih [] c hrec
      · rw [if_neg h2] at hc
        exact ih (curr ++ [wd]) c hc

/-- C7: every produced line is non-empty, and a single word wider than the
pixel budget still yields the one-word line `[[w]]` (the rollback branch
needs at least two words, so it cannot fire). -/
theorem chunk_words_nonempty_single (ws : List Word) (max_len : ℕ)
    (max_px_width : ℚ) (font : String → ℚ × ℚ) (w : Word)
    (hwide : max_px_width < (font w.word).1) :
    (∀ c ∈ chunk_words ws max_len max_px_width font, c ≠ []) ∧
      chunk_words [w] max_len max_px_width font = [[w]] := by
  refine ⟨chunkLoop_ne_nil font max_len max_px_width ws [], ?_⟩
  rw [chunk_words, chunkLoop]
  rw [if_neg (by simp)]
  by_cases h2 : endsPunct w.word ∨ max_len ≤ ([] ++ [w]).length
  · rw [if_pos h2, chunkLoop]
    simp
  · rw [if_neg h2, chunkLoop]
    simp

def wideWord : Word := ⟨"antidisestablishmentarianism", 2, 3⟩

/-- Witness for C7: a 1000-pixel-wide word against a 90-pixel budget. -/
theorem chunk_words_nonempty_single_witness :
    chunk_words [wideWord] 5 90 bigFont = [[wideWord]] :=
  (chunk_words_nonempty_single [] 5 90 bigFont wideWord (by decide)).2

theorem chunkLoop_texts (font : String → ℚ × ℚ) (max_len : ℕ) (max_px_width : ℚ) :
    ∀ (ws1 ws2 curr1 curr2 : List Word),
      ws1.map Word.word = ws2.map Word.word →
      curr1.map Word.word = curr2.map Word.word →
      (chunkLoop font max_len max_px_width curr1 ws1).map List.length
        = (chunkLoop font max_len max_px_width curr2 ws2).map List.length := by
  intro ws1
  induction ws1 with
  | nil =>
    intro ws2 curr1 curr2 hws hcurr
    have hws2 : ws2 = [] := by
      cases ws2 with
      | nil => rfl
      | cons a l => simp at hws
    subst hws2
    rw [chunkLoop, chunkLoop]
    have hlen : curr1.length = curr2.length := by
      rw [← List.length_map curr1 Word.word, hcurr, List.length_map]
    by_cases h1 : curr1.isEmpty
    · have h2 : curr2.isEmpty := by
        rw [List.isEmpty_iff] at h1 ⊢
        subst h1
        cases curr2 with
        | nil => rfl
        | cons a l => simp at hcurr
      rw [if_pos h1, if_pos h2]
    · have h2 : ¬ curr2.isEmpty := by
        rw [List.isEmpty_iff] at h1 ⊢
        intro h
        subst h
        exact h1 (by simpa using hcurr)
      rw [if_neg h1, if_neg h2]
      simp [hlen]
  | cons wd1 rest1 ih =>
    intro ws2 curr1 curr2 hws hcurr
    cases ws2 with
    | nil => simp at hws
    | cons wd2 rest2 =>
      simp only [List.map_cons, List.cons.injEq] at hws
      obtain ⟨hw, hrest⟩ := hws
      have hcurr' : (curr1 ++ [wd1]).map Word.word = (curr2 ++ [wd2]).map Word.word := by
        simp [hcurr, hw]
      have hjoin : joinWords (curr1 ++ [wd1]) = joinWords (curr2 ++ [wd2]) := by
        unfold joinWords
        rw [hcurr']
      have hlen' : (curr1 ++ [wd1]).length = (curr2 ++ [wd2]).length := by
        rw [← List.length_map _ Word.word, hcurr', List.length_map]
      have hlc : curr1.length = curr2.length := by
        rw [← List.length_map curr1 Word.word, hcurr, List.length_map]
      rw [chunkLoop, chunkLoop]
      by_cases h1 : max_px_width < (font (joinWords (curr1 ++ [wd1]))).1 ∧ 1 < (curr1 ++ [wd1]).length
      · have h1' : max_px_width < (font (joinWords (curr2 ++ [wd2]))).1 ∧ 1 < (curr2 ++ [wd2]).length := by
          rw [← hjoin, ← hlen']
          exact h1
        rw [if_pos h1, if_pos h1']
        simp only [List.map_cons]
        rw [hlc, ih rest2 [wd1] [wd2] hrest (by simp [hw])]
      · have h1' : ¬(max_px_width < (font (joinWords (curr2 ++ [wd2]))).1 ∧ 1 < (curr2 ++ [wd2]).length) := by
          rw [← hjoin, ← hlen']
          exact h1
        rw [if_neg h1, if_neg h1']
        by_cases h2 : endsPunct wd1.word ∨ max_len ≤ (curr1 ++ [wd1]).length
        · have h2' : endsPunct wd2.word ∨ max_len ≤ (curr2 ++ [wd2]).length := by
            rw [← hw, ← hlen']
            exact h2
          rw [if_pos h2, if_pos h2']
          simp only [List.map_cons]
          rw [hlen', ih rest2 [] [] hrest rfl]
        · have h2' : ¬(endsPunct wd2.word ∨ max_len ≤ (curr2 ++ [wd2]).length) := by
            rw [← hw, ← hlen']
            exact h2
          rw [if_neg h2, if_neg h2']
          exact ih rest2 (curr1 ++ [wd1]) (curr2 ++ [wd2]) hrest hcurr'

/-- C10: the chunk-boundary structure (the list of line lengths, i.e. the
partition of indices into lines) depends only on the word texts, never on
the timestamps. -/
theorem chunk_words_timestamp_independent (ws1 ws2 : List Word) (max_len : ℕ)
    (max_px_width : ℚ) (font : String → ℚ × ℚ)
    (h : ws1.map Word.word = ws2.map Word.word) :
    (chunk_words ws1 max_len max_px_width font).map List.length
      = (chunk_words ws2 max_len max_px_width font).map List.length :=
  chunkLoop_texts font max_len max_px_width ws1 ws2 [] [] h rfl

def wsTimesA : List Word := [⟨"Hello,", 0, 1⟩, ⟨"World", 1, 2⟩]

def wsTimesB : List Word := [⟨"Hello,", 5, 7⟩, ⟨"World", 8, 26⟩]

/-- Witness for C10: identical texts under wildly different timestamps. -/
theorem chunk_words_timestamp_independent_witness :
    (chunk_words wsTimesA 5 200 zeroFont).map List.length
      = (chunk_words wsTimesB 5 200 zeroFont).map List.length :=
  chunk_words_timestamp_independent wsTimesA wsTimesB 5 200 zeroFont rfl

/-- Instrumented copy of `chunkLoop` that tags each emitted line with a
Boolean recording whether the buffer it grew from was started by a
width-triggered rollback (the `curr = [wd]` assignment of line 74).  Erasing
the tags gives back `chunkLoop` (proved below); the tag is the provenance
notion used to state the overflow exception of the spec. -/
def chunkLoopI (font : String → ℚ × ℚ) (max_len : ℕ) (max_px_width : ℚ) :
    List Word → Bool → List Word → List (List Word × Bool)
  | curr, b, [] => if curr.isEmpty then [] else [(curr, b)]
  | curr, b, wd :: rest =>
    let curr' := curr ++ [wd]
    let line_width := (font (joinWords curr')).1
    if max_px_width < line_width ∧ 1 < curr'.length then
      (curr, b) :: chunkLoopI font max_len max_px_width [wd] true rest
    else if endsPunct wd.word ∨ max_len ≤ curr'.length then
      (curr', b) :: chunkLoopI font max_len max_px_width [] false rest
    else
      chunkLoopI font max_len max_px_width curr' b rest

def chunk_wordsI (words : List Word) (max_len : ℕ) (max_px_width : ℚ)
    (font : String → ℚ × ℚ) : List (List Word × Bool) :=
  chunkLoopI font max_len max_px_width [] false words

theorem chunkLoopI_fst (font : String → ℚ × ℚ) (max_len : ℕ) (max_px_width : ℚ) :
    ∀ (ws curr : List Word) (b : Bool),
      (chunkLoopI font max_len max_px_width curr b ws).map Prod.fst
        = chunkLoop font max_len max_px_width curr ws := by
  intro ws
  induction ws with
  | nil =>
    intro curr b
    rw [chunkLoopI, chunkLoop]
    by_cases h : curr.isEmpty
    · rw [if_pos h, if_pos h]
      rfl
    · rw [if_neg h, if_neg h]
      rfl
  | cons wd rest ih =>
    intro curr b
    rw [chunkLoopI, chunkLoop]
    by_cases h1 : max_px_width < (font (joinWords (curr ++ [wd]))).1 ∧ 1 < (curr ++ [wd]).length
    · rw [if_pos h1, if_pos h1]
      simp only [List.map_cons, ih]
    · rw [if_neg h1, if_neg h1]
      by_cases h2 : endsPunct wd.word ∨ max_len ≤ (curr ++ [wd]).length
      · rw [if_pos h2, if_pos h2]
        simp only [List.map_cons, ih]
      · rw [if_neg h2, if_neg h2]
        exact ih (curr ++ [wd]) b

theorem chunkLoopI_bound (font : String → ℚ × ℚ) (max_len : ℕ) (max_px_width : ℚ)
    (hmax : 1 ≤ max_len) :
    ∀ (ws curr : List Word) (b : Bool),
      (b = false → curr = [] ∨ curr.length < max_len) →
      ∀ p ∈ chunkLoopI font max_len max_px_width curr b ws,
        (p.1.length ≤ max_len ∨ p.2 = true) := by
  intro ws
  induction ws with
  | nil =>
    intro curr b hinv p hp
    rw [chunkLoopI] at hp
    by_cases h : curr.isEmpty
    · rw [if_pos h] at hp
      exact absurd hp (List.not_mem_nil p)
    · rw [if_neg h] at hp
      rw [List.mem_singleton] at hp
      subst hp
      cases b with
      | false =>
        rcases hinv rfl with hnil | hlt
        · exact absurd (by rw [hnil]; rfl) h
        · exact Or.inl (le_of_lt hlt)
      | true => exact Or.inr rfl
  | cons wd rest ih =>
    intro curr b hinv p hp
    rw [chunkLoopI] at hp
    by_cases h1 : max_px_width < (font (joinWords (curr ++ [wd]))).1 ∧ 1 < (curr ++ [wd]).length
    · rw [if_pos h1] at hp
      rcases List.mem_cons.mp hp with hfst | hrec
      · subst hfst
        cases b with
        | false =>
          rcases hinv rfl with hnil | hlt
          · exact Or.inl (by rw [hnil]; simp)
          · exact Or.inl (le_of_lt hlt)
        | true => exact Or.inr rfl
      · exact ih [wd] true (by intro hf; exact absurd hf (by simp)) p hrec
    · rw [if_neg h1] at hp
      by_cases h2 : endsPunct wd.word ∨ max_len ≤ (curr ++ [wd]).length
      · rw [if_pos h2] at hp
        rcases List.mem_cons.mp hp with hfst | hrec
        · subst hfst
          cases b with
          | false =>
            rcases hinv rfl with hnil | hlt
            · refine Or.inl ?_
              rw [hnil]
              simpa using hmax
            · refine Or.inl ?_
              simp only [List.length_append, List.length_cons, List.length_nil]
              omega
          | true => exact Or.inr rfl
        · exact ih [] false (fun _ => Or.inl rfl) p hrec
      · rw [if_neg h2] at hp
        refine ih (curr ++ [wd]) b ?_ p hp
        intro hb
        refine Or.inr ?_
        rcases not_or.mp h2 with ⟨_, hlen⟩
        omega

/-- C6: erasing the rollback tags of `chunk_wordsI` gives exactly the lines
of `chunk_words`, and for every max word count ≥ 1 every produced line either
has at most `max_len` words or grew from a buffer started by a
width-triggered rollback (the deferred overflow word). -/
theorem chunk_words_length_bound (words : List Word) (max_len : ℕ)
    (max_px_width : ℚ) (font : String → ℚ × ℚ) (hmax : 1 ≤ max_len) :
    (chunk_wordsI words max_len max_px_width font).map Prod.fst
        = chunk_words words max_len max_px_width font ∧
      ∀ p ∈ chunk_wordsI words max_len max_px_width font,
        p.1.length ≤ max_len ∨ p.2 = true := by
  constructor
  · exact chunkLoopI_fst font max_len max_px_width words [] false
  · exact chunkLoopI_bound font max_len max_px_width hmax words [] false
      (fun _ => Or.inl rfl)

/-- Witness for C6 at the concrete three-word input. -/
theorem chunk_words_length_bound_witness :
    (chunk_wordsI demoWords 5 200 zeroFont).map Prod.fst
        = chunk_words demoWords 5 200 zeroFont ∧
      ∀ p ∈ chunk_wordsI demoWords 5 200 zeroFont,
        p.1.length ≤ 5 ∨ p.2 = true :=
  chunk_words_length_bound demoWords 5 200 zeroFont (by decide)

/-- Per-word highlight rectangle with its visibility time gate, i.e. the
payload of one `drawbox` directive (src/karaoke.py lines 135-139) before
string formatting. -/
structure BoxDirective where
  x : ℚ
  y : ℚ
  w : ℚ
  h : ℚ
  visibleFrom : ℚ
  visibleUntil : ℚ
deriving DecidableEq

/-- Word loop of the emitter (src/karaoke.py lines 125-141): `px` is the
horizontal cursor, `lw`/`lh` the measured full-line width and height,
`last_end` the value of `chunk[-1]['end']`.  For each word the end gate is
the next word's start if one exists in the line, else `last_end`; after the
word the cursor advances by the measured width of the word text plus a
trailing space. -/
def boxLoop (font : String → ℚ × ℚ) (W lw lh y_base pad last_end : ℚ) :
    ℚ → List Word → List BoxDirective
  | _, [] => []
  | px, wd :: rest =>
    let s_t := wd.start
    let e_t := match rest with
      | nxt :: _ => nxt.start
      | [] => last_end
    let wpx := (font wd.word).1
    let x0 := (W - lw) / 2 + px - pad
    let y0 := y_base - pad
    ⟨x0, y0, wpx + pad * 2, lh + pad * 2, s_t, e_t⟩ ::
      boxLoop font W lw lh y_base pad last_end (px + (font (wd.word ++ " ")).1) rest

/-- Highlight boxes of one line: the emitter measures the joined line text
once (line 115) and runs the word loop with cursor 0 (line 125); an empty
line yields no boxes. -/
def lineBoxes (font : String → ℚ × ℚ) (W y_base pad : ℚ) (chunk : List Word) :
    List BoxDirective :=
  match chunk.getLast? with
  | none => []
  | some lastw =>
    boxLoop font W (font (joinWords chunk)).1 (font (joinWords chunk)).2
      y_base pad lastw.end_ 0 chunk

theorem boxLoop_length (font : String → ℚ × ℚ) (W lw lh y_base pad last_end : ℚ) :
    ∀ (ws : List Word) (px : ℚ),
      (boxLoop font W lw lh y_base pad last_end px ws).length = ws.length := by
  intro ws
  induction ws with
  | nil => intro px; rfl
  | cons wd rest ih =>
    intro px
    simp only [boxLoop]
    simp only [List.length_cons, ih]

theorem boxLoop_visibleUntil_mid (font : String → ℚ × ℚ)
    (W lw lh y_base pad last_end : ℚ) :
    ∀ (ws : List Word) (px : ℚ) (i : ℕ), i + 1 < ws.length →
      ((boxLoop font W lw lh y_base pad last_end px ws)[i]?).map BoxDirective.visibleUntil
        = (ws[i+1]?).map Word.start := by
  intro ws
  induction ws with
  | nil => intro px i h; simp at h
  | cons wd rest ih =>
    intro px i h
    simp only [boxLoop]
    cases i with
    | zero =>
      cases rest with
      | nil => simp at h
      | cons nxt rest' => simp
    | succ j =>
      simp only [List.getElem?_cons_succ]
      exact ih _ j (by simpa using h)

theorem boxLoop_visibleUntil_last (font : String → ℚ × ℚ)
    (W lw lh y_base pad last_end : ℚ) :
    ∀ (ws : List Word) (px : ℚ), ws ≠ [] →
      ((boxLoop font W lw lh y_base pad last_end px ws)[ws.length - 1]?).map
          BoxDirective.visibleUntil
        = some last_end := by
  intro ws
  induction ws with
  | nil => intro px h; exact absurd rfl h
  | cons wd rest ih =>
    intro px h
    simp only [boxLoop]
    cases rest with
    | nil => simp
    | cons r rs =>
      have hlen : (wd :: r :: rs).length - 1 = (r :: rs).length - 1 + 1 := by
        simp
      rw [hlen]
      simp only [List.getElem?_cons_succ]
      exact ih _ (by simp)

/-- C2: in every produced line, each word with a successor has
`visibleUntil` equal to that successor's start, and the line's last word has
`visibleUntil` equal to its own end time. -/
theorem lineBoxes_visibleUntil (font : String → ℚ × ℚ) (W y_base pad : ℚ)
    (chunk : List Word) :
    (∀ i : ℕ, i + 1 < chunk.length →
        ((lineBoxes font W y_base pad chunk)[i]?).map BoxDirective.visibleUntil
          = (chunk[i+1]?).map Word.start) ∧
      ((lineBoxes font W y_base pad chunk)[chunk.length - 1]?).map
          BoxDirective.visibleUntil
        = (chunk.getLast?).map Word.end_ := by
  rw [lineBoxes]
  cases hlast : chunk.getLast? with
  | none =>
    have : chunk = [] := List.getLast?_eq_none_iff.mp hlast
    subst this
    exact ⟨fun i h => by simp at h, by simp⟩
  | some lastw =>
    have hne : chunk ≠ [] := by
      intro h
      subst h
      simp at hlast
    constructor
    · intro i h
      exact boxLoop_visibleUntil_mid font W _ _ y_base pad lastw.end_ chunk 0 i h
    · rw [boxLoop_visibleUntil_last font W _ _ y_base pad lastw.end_ chunk 0 hne]
      simp

def demoChunk : List Word := [⟨"take", 10, 11⟩, ⟨"me", 11, 12⟩, ⟨"home", 12, 13⟩]

/-- Witness for C2: the first box of a concrete three-word line ends exactly
at the second word's start, and the last box at the last word's end. -/
theorem lineBoxes_visibleUntil_witness :
    ((lineBoxes zeroFont 100 50 2 demoChunk)[0]?).map BoxDirective.visibleUntil
        = (demoChunk[1]?).map Word.start ∧
      ((lineBoxes zeroFont 100 50 2 demoChunk)[demoChunk.length - 1]?).map
          BoxDirective.visibleUntil
        = (demoChunk.getLast?).map Word.end_ :=
  ⟨(lineBoxes_visibleUntil zeroFont 100 50 2 demoChunk).1 0 (by decide),
    (lineBoxes_visibleUntil zeroFont 100 50 2 demoChunk).2⟩

/-- Cursor value before word `i` of a line: the summed advance widths
(`font.getsize(word + ' ')[0]`, line 140) of the words before it. -/
def cursorAt (font : String → ℚ × ℚ) (ws : List Word) (i : ℕ) : ℚ :=
  ((ws.take i).map (fun w => (font (w.word ++ " ")).1)).sum

theorem boxLoop_x (font : String → ℚ × ℚ) (W lw lh y_base pad last_end : ℚ) :
    ∀ (ws : List Word) (px : ℚ) (i : ℕ), i < ws.length →
      ((boxLoop font W lw lh y_base pad last_end px ws)[i]?).map BoxDirective.x
        = some ((W - lw) / 2 + (px + cursorAt font ws i) - pad) := by
  intro ws
  induction ws with
  | nil => intro px i h; simp at h
  | cons wd rest ih =>
    intro px i h
    simp only [boxLoop]
    cases i with
    | zero =>
      simp only [List.getElem?_cons_zero, Option.map_some', cursorAt, List.take_zero,
        List.map_nil, List.sum_nil]
      exact congrArg some (by ring)
    | succ j =>
      simp only [List.getElem?_cons_succ]
      rw [ih (px + (font (wd.word ++ " ")).1) j (by simpa using h)]
      refine congrArg some ?_
      have : cursorAt font (wd :: rest) (j + 1)
          = (font (wd.word ++ " ")).1 + cursorAt font rest j := by
        simp [cursorAt, List.take_succ_cons]
      rw [this]
      ring

theorem cursorAt_mono (font : String → ℚ × ℚ) (hfont : ∀ s, 0 ≤ (font s).1)
    (ws : List Word) {i j : ℕ} (hij : i ≤ j) :
    cursorAt font ws i ≤ cursorAt font ws j := by
  have h1 : ws.take j = ws.take i ++ (ws.take j).drop i := by
    conv_lhs => rw [← List.take_append_drop i (ws.take j)]
    rw [List.take_take, min_eq_left hij]
  rw [cursorAt, cursorAt, h1, List.map_append, List.sum_append]
  have h2 : 0 ≤ (((ws.take j).drop i).map (fun w => (font (w.word ++ " ")).1)).sum := by
    refine List.sum_nonneg ?_
    intro x hx
    obtain ⟨w, _, rfl⟩ := List.mem_map.mp hx
    exact hfont _
  linarith

/-- C9: assuming the metrics function returns non-negative widths, box `i`
of a line sits at `centeredStartX + cursor - padding` (the cursor having
advanced by the width of each previous word plus a trailing space), and the
x positions are non-decreasing left to right. -/
theorem lineBoxes_x_cursor (font : String → ℚ × ℚ) (W y_base pad : ℚ)
    (chunk : List Word) (hfont : ∀ s, 0 ≤ (font s).1) :
    (∀ i : ℕ, i < chunk.length →
        ((lineBoxes font W y_base pad chunk)[i]?).map BoxDirective.x
          = some ((W - (font (joinWords chunk)).1) / 2 + cursorAt font chunk i - pad)) ∧
      ∀ i j : ℕ, i ≤ j → j < chunk.length →
        ∀ bi bj : BoxDirective, (lineBoxes font W y_base pad chunk)[i]? = some bi →
          (lineBoxes font W y_base pad chunk)[j]? = some bj → bi.x ≤ bj.x := by
  have hx : ∀ i : ℕ, i < chunk.length →
      ((lineBoxes font W y_base pad chunk)[i]?).map BoxDirective.x
        = some ((W - (font (joinWords chunk)).1) / 2 + cursorAt font chunk i - pad) := by
    intro i hi
    rw [lineBoxes]
    cases hlast : chunk.getLast? with
    | none =>
      have : chunk = [] := List.getLast?_eq_none_iff.mp hlast
      subst this
      simp at hi
    | some lastw =>
      rw [boxLoop_x font W _ _ y_base pad lastw.end_ chunk 0 i hi]
      exact congrArg some (by ring)
  refine ⟨hx, ?_⟩
  intro i j hij hj bi bj hbi hbj
  have hi : i < chunk.length := lt_of_le_of_lt (by omega) hj
  have h1 := hx i hi
  have h2 := hx j hj
  rw [hbi] at h1
  rw [hbj] at h2
  simp only [Option.map_some'] at h1 h2
  have e1 := Option.some.inj h1
  have e2 := Option.some.inj h2
  have := cursorAt_mono font hfont chunk hij
  rw [e1, e2]
  linarith

/-- Witness for C9: first box of the demo line, zero-width font. -/
theorem lineBoxes_x_cursor_witness :
    ((lineBoxes zeroFont 100 50 2 demoChunk)[0]?).map BoxDirective.x
      = some ((100 - (zeroFont (joinWords demoChunk)).1) / 2
          + cursorAt zeroFont demoChunk 0 - 2) :=
  (lineBoxes_x_cursor zeroFont 100 50 2 demoChunk
    (fun s => by norm_num [zeroFont])).1 0 (by decide)

/-- Nominal end of line `i`: `chunk[-1]['end']` as read at line 116. -/
def nominalLineEnd (chunks : List (List Word)) (i : ℕ) : Option ℚ :=
  ((chunks[i]?).bind List.getLast?).map Word.end_

/-- Start of line `i`: `chunk[0]['start']` as read at lines 116 and 121. -/
def lineStartAt (chunks : List (List Word)) (i : ℕ) : Option ℚ :=
  ((chunks[i]?).bind List.head?).map Word.start

/-- Caption visibility window end of line `i` (src/karaoke.py lines
116-123): start from `et = chunk[-1]['end']`; when a following chunk exists
and `next_st - et < 1.0`, the window end becomes `next_st`. -/
def captionEnd (chunks : List (List Word)) (i : ℕ) : Option ℚ :=
  match nominalLineEnd chunks i with
  | none => none
  | some et =>
    match lineStartAt chunks (i + 1) with
    | none => some et
    | some next_st => some (if next_st - et < 1 then next_st else et)

def overlapChunks : List (List Word) := [[⟨"a", 0, 5⟩], [⟨"b", 3, 6⟩]]

/-- Counterexample to C3 as stated: when the next line starts before this
line's nominal end (here 3 < 5), the condition `next_st - et < 1.0` still
fires and the caption window end becomes 3, strictly below the nominal
last-word end 5 — the adjustment shortens the window. -/
theorem captionEnd_shortens :
    nominalLineEnd overlapChunks 0 = some 5 ∧
      captionEnd overlapChunks 0 = some 3 ∧ ¬ (5 : ℚ) ≤ 3 := by
  refine ⟨rfl, ?_, by norm_num⟩
  have h1 : nominalLineEnd overlapChunks 0 = some 5 := rfl
  have h2 : lineStartAt overlapChunks (0 + 1) = some 3 := rfl
  rw [captionEnd, h1, h2]
  norm_num

/-- C3 amended: provided the next line does not start before this line's
nominal last-word end (lines in chronological order — the situation the
counterexample violates), the caption window end is ≥ the nominal end,
exceeds it only by becoming the next line's start when that start is within
1.0 second of the nominal end, and the adjustment never shortens the
window. -/
theorem captionEnd_extends (chunks : List (List Word)) (i : ℕ) (e : ℚ)
    (he : nominalLineEnd chunks i = some e)
    (horder : ∀ s : ℚ, lineStartAt chunks (i + 1) = some s → e ≤ s) :
    ∃ et : ℚ, captionEnd chunks i = some et ∧ e ≤ et ∧
      (e < et → lineStartAt chunks (i + 1) = some et ∧ et - e < 1) ∧
      ∀ s : ℚ, lineStartAt chunks (i + 1) = some s → s - e < 1 → et = s := by
  have hc : captionEnd chunks i =
      match lineStartAt chunks (i + 1) with
      | none => some e
      | some next_st => some (if next_st - e < 1 then next_st else e) := by
    unfold captionEnd
    rw [he]
  cases hs : lineStartAt chunks (i + 1) with
  | none =>
    rw [hs] at hc
    have hc2 : captionEnd chunks i = some e := hc
    refine ⟨e, hc2, le_refl e, fun hlt => absurd hlt (lt_irrefl e), ?_⟩
    intro s hs' _
    exact absurd hs' (by simp)
  | some s =>
    rw [hs] at hc
    have hc2 : captionEnd chunks i = some (if s - e < 1 then s else e) := hc
    have hes : e ≤ s := horder s hs
    by_cases hlt : s - e < 1
    · rw [if_pos hlt] at hc2
      refine ⟨s, hc2, hes, fun _ => ⟨rfl, by linarith⟩, ?_⟩
      intro s' hs' _
      exact Option.some.inj hs'
    · rw [if_neg hlt] at hc2
      refine ⟨e, hc2, le_refl e, fun hlt' => absurd hlt' (lt_irrefl e), ?_⟩
      intro s' hs' hgap
      rw [← Option.some.inj hs'] at hgap
      exact absurd hgap hlt

def gapChunks : List (List Word) := [[⟨"x", 0, 2⟩], [⟨"y", 5/2, 4⟩]]

/-- Witness for C3 amended: two lines half a second apart. -/
theorem captionEnd_extends_witness :
    ∃ et : ℚ, captionEnd gapChunks 0 = some et ∧ (2 : ℚ) ≤ et ∧
      ((2 : ℚ) < et → lineStartAt gapChunks (0 + 1) = some et ∧ et - 2 < 1) ∧
      ∀ s : ℚ, lineStartAt gapChunks (0 + 1) = some s → s - 2 < 1 → et = s :=
  captionEnd_extends gapChunks 0 2 rfl (by
    intro s h
    have hl : lineStartAt gapChunks (0 + 1) = some ((5 : ℚ)/2) := rfl
    rw [hl] at h
    rw [← Option.some.inj h]
    norm_num)

/-- Chunk collection of `main` (src/karaoke.py lines 99-104): for each
segment in order, skip it when its word list is empty, otherwise extend
`all_chunks` with `chunk_words` applied to that segment's own words. -/
def all_chunks (segments : List (List Word)) (max_len : ℕ) (max_px_width : ℚ)
    (font : String → ℚ × ℚ) : List (List Word) :=
  match segments with
  | [] => []
  | seg :: rest =>
    if seg.isEmpty then all_chunks rest max_len max_px_width font
    else chunk_words seg max_len max_px_width font
        ++ all_chunks rest max_len max_px_width font

def segA : List Word := [⟨"alpha", 0, 1⟩]

def segB : List Word := [⟨"beta", 1, 2⟩]

/-- Counterexample to C4: with two one-word segments, no punctuation and no
width pressure, `main` produces two one-word lines, while chunking the
flattened global word sequence would produce one two-word line — a segment
boundary does force a line to close. -/
theorem all_chunks_not_flattened :
    all_chunks [segA, segB] 5 100 zeroFont
      ≠ chunk_words ([segA, segB]).flatten 5 100 zeroFont := by
  decide

/-- C4 amended: the program chunks each segment independently; the produced
lines are the concatenation, in segment order, of `chunk_words` applied to
each segment's own word list (an empty segment contributing nothing). -/
theorem all_chunks_per_segment (segments : List (List Word)) (max_len : ℕ)
    (max_px_width : ℚ) (font : String → ℚ × ℚ) :
    all_chunks segments max_len max_px_width font
      = (segments.map (fun ws => chunk_words ws max_len max_px_width font)).flatten := by
  induction segments with
  | nil => rfl
  | cons seg rest ih =>
    rw [all_chunks]
    by_cases h : seg.isEmpty
    · have hseg : seg = [] := List.isEmpty_iff.mp h
      subst hseg
      rw [if_pos h]
      simp only [List.map_cons, List.flatten_cons, ih]
      rw [show chunk_words [] max_len max_px_width font = [] from rfl, List.nil_append]
    · rw [if_neg h]
      simp only [List.map_cons, List.flatten_cons, ih]

/-! Fallible embedding of `main`.  Python dict lookups `w['word']`,
`w['start']`, `w['end']` raise `KeyError` when the key is absent; a word
object is therefore a record of three optional fields and every lookup is
`Except`-valued.  `ffprobe`, the JSON read and the font load are external
fallible steps, passed in as `Except` parameters. -/

/-- A word object of the timing document, each required field possibly
missing. -/
structure RawWord where
  word? : Option String
  start? : Option ℚ
  end? : Option ℚ
deriving DecidableEq

/-- Lookup `wd['word']`. -/
def getWord (w : RawWord) : Except String String :=
  match w.word? with
  | some s => .ok s
  | none => .error "KeyError: word"

/-- Lookup `wd['start']`. -/
def getStart (w : RawWord) : Except String ℚ :=
  match w.start? with
  | some q => .ok q
  | none => .error "KeyError: start"

/-- Lookup `wd['end']`. -/
def getEnd (w : RawWord) : Except String ℚ :=
  match w.end? with
  | some q => .ok q
  | none => .error "KeyError: end"

/-- The texts of a buffer, in order, as consumed by
`' '.join(w['word'] for w in curr)`: the first missing `word` key aborts. -/
def getWords : List RawWord → Except String (List String)
  | [] => .ok []
  | w :: ws =>
    match getWord w with
    | .error e => .error e
    | .ok t =>
      match getWords ws with
      | .error e => .error e
      | .ok ts => .ok (t :: ts)

/-- Loop of `chunk_words` over word objects (src/karaoke.py lines 62-80),
with the dict lookups explicit. -/
def chunkLoopE (font : String → ℚ × ℚ) (max_len : ℕ) (max_px_width : ℚ) :
    List RawWord → List RawWord → Except String (List (List RawWord))
  | curr, [] => .ok (if curr.isEmpty then [] else [curr])
  | curr, wd :: rest =>
    let curr' := curr ++ [wd]
    match getWords curr' with
    | .error e => .error e
    | .ok ts =>
      let line_width := (font (String.intercalate " " ts)).1
      if max_px_width < line_width ∧ 1 < curr'.length then
        match chunkLoopE font max_len max_px_width [wd] rest with
        | .error e => .error e
        | .ok chunks => .ok (curr :: chunks)
      else
        match getWord wd with
        | .error e => .error e
        | .ok wt =>
          if endsPunct wt ∨ max_len ≤ curr'.length then
            match chunkLoopE font max_len max_px_width [] rest with
            | .error e => .error e
            | .ok chunks => .ok (curr' :: chunks)
          else
            chunkLoopE font max_len max_px_width curr' rest

/-- `chunk_words` over word objects. -/
def chunk_wordsE (words : List RawWord) (max_len : ℕ) (max_px_width : ℚ)
    (font : String → ℚ × ℚ) : Except String (List (List RawWord)) :=
  chunkLoopE font max_len max_px_width [] words

/-- Chunk collection of `main` over the parsed document (lines 99-104):
segments with an empty word list are skipped, the others contribute their
`chunk_words` lines in order. -/
def collectChunksE (font : String → ℚ × ℚ) (max_len : ℕ) (max_px_width : ℚ) :
    List (List RawWord) → Except String (List (List RawWord))
  | [] => .ok []
  | seg :: rest =>
    if seg.isEmpty then collectChunksE font max_len max_px_width rest
    else
      match chunk_wordsE seg max_len max_px_width font with
      | .error e => .error e
      | .ok cs =>
        match collectChunksE font max_len max_px_width rest with
        | .error e => .error e
        | .ok more => .ok (cs ++ more)

/-- Escaping of the caption text (lines 109-113).  Every searched pattern is
a single character and no replacement re-introduces a character searched by
a later `replace`, so the chained `str.replace` calls act per character. -/
def escapeChar (c : Char) : String :=
  if c = '\\' then "\\\\"
  else if c = Char.ofNat 39 then "’"
  else if c = ',' then "\\,"
  else if c = ':' then "\\:"
  else if c = '%' then " percent"
  else String.singleton c

def escapeText (s : String) : String :=
  String.join (s.data.map escapeChar)

/-- One primitive directive of the emitted filter chain: a `drawbox` (lines
135-139) or a `drawtext` (lines 143-151), before number formatting. -/
inductive Directive
  | drawbox (x y w h : ℚ) (color : String) (s_t e_t : ℚ)
  | drawtext (text : String) (color : String) (size lw y_base st et : ℚ)
deriving DecidableEq

/-- Word loop of the emitter over word objects (lines 125-141): each word's
`start` is read, the gate end is the next word's `start` or the value of
`chunk[-1]['end']`, then the word's text is read and measured. -/
def boxLoopE (font : String → ℚ × ℚ) (W lw lh y_base pad : ℚ) (box_color : String)
    (last_end : ℚ) : ℚ → List RawWord → Except String (List Directive)
  | _, [] => .ok []
  | px, wd :: rest =>
    match getStart wd with
    | .error e => .error e
    | .ok s_t =>
      match (match rest with
             | nxt :: _ => getStart nxt
             | [] => .ok last_end) with
      | .error e => .error e
      | .ok e_t =>
        match getWord wd with
        | .error e => .error e
        | .ok wtxt =>
          let wpx := (font wtxt).1
          let x0 := (W - lw) / 2 + px - pad
          let y0 := y_base - pad
          match boxLoopE font W lw lh y_base pad box_color last_end
              (px + (font (wtxt ++ " ")).1) rest with
          | .error e => .error e
          | .ok more =>
            .ok (.drawbox x0 y0 (wpx + pad * 2) (lh + pad * 2) box_color s_t e_t :: more)

/-- `chunk[0]['start']` (line 116 / line 121): index error on an empty
chunk, else the first word's `start` lookup. -/
def firstStartE (chunk : List RawWord) : Except String ℚ :=
  match chunk.head? with
  | none => .error "IndexError"
  | some w => getStart w

/-- `chunk[-1]['end']` (line 116). -/
def lastEndE (chunk : List RawWord) : Except String ℚ :=
  match chunk.getLast? with
  | none => .error "IndexError"
  | some w => getEnd w

/-- Body of the emitter loop for one chunk (lines 108-151): join and escape
the line text, measure it, read `st`/`et`, extend `et` to the next chunk's
start when it is within 1.0 second, emit one box per word, then the line's
text directive. -/
def processChunkE (font : String → ℚ × ℚ) (cfg_font_size W y_base pad : ℚ)
    (box_color font_color : String) (chunk : List RawWord)
    (next? : Option (List RawWord)) : Except String (List Directive) :=
  match getWords chunk with
  | .error e => .error e
  | .ok ts =>
    let raw_line := String.intercalate " " ts
    let safe := escapeText raw_line
    let lw := (font raw_line).1
    let lh := (font raw_line).2
    match firstStartE chunk with
    | .error e => .error e
    | .ok st =>
      match lastEndE chunk with
      | .error e => .error e
      | .ok et0 =>
        let etE : Except String ℚ :=
          match next? with
          | none => .ok et0
          | some nc =>
            match firstStartE nc with
            | .error e => .error e
            | .ok next_st => .ok (if next_st - et0 < 1 then next_st else et0)
        match etE with
        | .error e => .error e
        | .ok et =>
          match boxLoopE font W lw lh y_base pad box_color et0 0 chunk with
          | .error e => .error e
          | .ok boxes =>
            .ok (boxes ++ [.drawtext safe font_color cfg_font_size lw y_base st et])

/-- Emitter loop over all chunks in order (lines 107-151), each chunk seeing
its successor for the caption-extension check. -/
def emitLoopE (font : String → ℚ × ℚ) (cfg_font_size W y_base pad : ℚ)
    (box_color font_color : String) :
    List (List RawWord) → Except String (List Directive)
  | [] => .ok []
  | c :: rest =>
    match processChunkE font cfg_font_size W y_base pad box_color font_color
        c rest.head? with
    | .error e => .error e
    | .ok ds =>
      match emitLoopE font cfg_font_size W y_base pad box_color font_color rest with
      | .error e => .error e
      | .ok more => .ok (ds ++ more)

/-- Configuration snapshot of the recognised options that reach the layout
and emitter (src/karaoke.py lines 29-46). -/
structure Config where
  font_size : ℚ
  margin : Option ℚ
  margin_percent : ℚ
  max_words : ℕ
  max_width : ℚ
  pad : ℚ
  box_color : String
  font_color : String
deriving DecidableEq

/-- Fallible part of `main` (lines 84-151): probe the resolution, resolve
the margin, read the document, load the font, collect the chunks, emit the
directives.  Any failure aborts before anything is written. -/
def mainE (probe : Except String (ℚ × ℚ))
    (jsonLoad : Except String (List (List RawWord)))
    (fontLoad : Except String (String → ℚ × ℚ)) (cfg : Config) :
    Except String (List Directive) :=
  match probe with
  | .error e => .error e
  | .ok (W, H) =>
    let margin_px := match cfg.margin with
      | some m => m
      | none => H * (cfg.margin_percent / 100)
    match jsonLoad with
    | .error e => .error e
    | .ok data =>
      match fontLoad with
      | .error e => .error e
      | .ok font =>
        let max_pixel_width := W * (cfg.max_width / 100)
        let y_base := H - margin_px
        match collectChunksE font cfg.max_words max_pixel_width data with
        | .error e => .error e
        | .ok chunks =>
          emitLoopE font cfg.font_size W y_base cfg.pad cfg.box_color
            cfg.font_color chunks

/-- Run of `main` with the file system visible: the returned list is the
sequence of writes to the output program file.  The single
`Path(...).write_text` (line 159) runs after `mainE` has fully computed the
directive list; an exception anywhere before it propagates and nothing is
written. -/
def mainRun (probe : Except String (ℚ × ℚ))
    (jsonLoad : Except String (List (List RawWord)))
    (fontLoad : Except String (String → ℚ × ℚ)) (cfg : Config) :
    Except String Unit × List (List Directive) :=
  match mainE probe jsonLoad fontLoad cfg with
  | .error e => (.error e, [])
  | .ok filters => (.ok (), [filters])

/-- Success test on an `Except` result. -/
def runOk {α : Type} : Except String α → Bool
  | .ok _ => true
  | .error _ => false

theorem getWords_err (ws : List RawWord) (h : ∃ w ∈ ws, w.word? = none) :
    runOk (getWords ws) = false := by
  induction ws with
  | nil => simp at h
  | cons w rest ih =>
    rw [getWords]
    rcases h with ⟨x, hx, hnone⟩
    rcases List.mem_cons.mp hx with rfl | hxs
    · simp [getWord, hnone, runOk]
    · cases hw : getWord w with
      | error e => simp [runOk]
      | ok t =>
        have hrest := ih ⟨x, hxs, hnone⟩
        cases hrec : getWords rest with
        | error e => simp [runOk]
        | ok ts =>
          rw [hrec] at hrest
          simp [runOk] at hrest

theorem chunkLoopE_word_err (font : String → ℚ × ℚ) (max_len : ℕ) (max_px_width : ℚ) :
    ∀ (ws curr : List RawWord), (∃ w ∈ ws, w.word? = none) →
      runOk (chunkLoopE font max_len max_px_width curr ws) = false := by
  intro ws
  induction ws with
  | nil => intro curr h; simp at h
  | cons wd rest ih =>
    intro curr h
    simp only [chunkLoopE]
    rcases h with ⟨x, hx, hnone⟩
    rcases List.mem_cons.mp hx with rfl | hxs
    · have herr : runOk (getWords (curr ++ [x])) = false :=
        getWords_err _ ⟨x, by simp, hnone⟩
      cases hq : getWords (curr ++ [x]) with
      | error e => simp [runOk]
      | ok ts =>
        rw [hq] at herr
        simp [runOk] at herr
    · cases hq : getWords (curr ++ [wd]) with
      | error e => simp [runOk]
      | ok ts =>
        by_cases hcond : max_px_width < (font (String.intercalate " " ts)).1
            ∧ 1 < (curr ++ [wd]).length
        · simp only [if_pos hcond]
          have hrest := ih [wd] ⟨x, hxs, hnone⟩
          cases hrec : chunkLoopE font max_len max_px_width [wd] rest with
          | error e => simp [hrec, runOk]
          | ok cs =>
            rw [hrec] at hrest
            simp [runOk] at hrest
        · simp only [if_neg hcond]
          cases hw : getWord wd with
          | error e => simp [hw, runOk]
          | ok wt =>
            simp only [hw]
            by_cases hp : endsPunct wt ∨ max_len ≤ (curr ++ [wd]).length
            · simp only [if_pos hp]
              have hrest := ih [] ⟨x, hxs, hnone⟩
              cases hrec : chunkLoopE font max_len max_px_width [] rest with
              | error e => simp [hrec, runOk]
              | ok cs =>
                rw [hrec] at hrest
                simp [runOk] at hrest
            · simp only [if_neg hp]
              exact ih (curr ++ [wd]) ⟨x, hxs, hnone⟩

theorem chunkLoopE_flatten (font : String → ℚ × ℚ) (max_len : ℕ) (max_px_width : ℚ) :
    ∀ (ws curr : List RawWord) (chunks : List (List RawWord)),
      chunkLoopE font max_len max_px_width curr ws = .ok chunks →
      chunks.flatten = curr ++ ws := by
  intro ws
  induction ws with
  | nil =>
    intro curr chunks h
    simp only [chunkLoopE] at h
    have heq := Except.ok.inj h
    by_cases hc : curr.isEmpty
    · rw [if_pos hc] at heq
      rw [← heq]
      simp [List.isEmpty_iff.mp hc]
    · rw [if_neg hc] at heq
      rw [← heq]
      simp
  | cons wd rest ih =>
    intro curr chunks h
    simp only [chunkLoopE] at h
    cases hq : getWords (curr ++ [wd]) with
    | error e => rw [hq] at h; simp at h
    | ok ts =>
      rw [hq] at h
      simp only [] at h
      by_cases hcond : max_px_width < (font (String.intercalate " " ts)).1
          ∧ 1 < (curr ++ [wd]).length
      · simp only [if_pos hcond] at h
        cases hrec : chunkLoopE font max_len max_px_width [wd] rest with
        | error e => rw [hrec] at h; simp at h
        | ok cs =>
          rw [hrec] at h
          simp only [] at h
          rw [← Except.ok.inj h]
          simp only [List.flatten_cons, ih [wd] cs hrec]
          simp
      · simp only [if_neg hcond] at h
        cases hw : getWord wd with
        | error e => rw [hw] at h; simp at h
        | ok wt =>
          rw [hw] at h
          simp only [] at h
          by_cases hp : endsPunct wt ∨ max_len ≤ (curr ++ [wd]).length
          · simp only [if_pos hp] at h
            cases hrec : chunkLoopE font max_len max_px_width [] rest with
            | error e => rw [hrec] at h; simp at h
            | ok cs =>
              rw [hrec] at h
              simp only [] at h
              rw [← Except.ok.inj h]
              simp only [List.flatten_cons, ih [] cs hrec]
              simp
          · simp only [if_neg hp] at h
            rw [ih (curr ++ [wd]) chunks h]
            simp

theorem collectChunksE_word_err (font : String → ℚ × ℚ) (max_len : ℕ)
    (max_px_width : ℚ) :
    ∀ doc : List (List RawWord), (∃ seg ∈ doc, ∃ w ∈ seg, w.word? = none) →
      runOk (collectChunksE font max_len max_px_width doc) = false := by
  intro doc
  induction doc with
  | nil => intro h; simp at h
  | cons seg rest ih =>
    intro h
    simp only [collectChunksE]
    rcases h with ⟨s, hs, x, hx, hnone⟩
    rcases List.mem_cons.mp hs with rfl | hss
    · have hne : ¬ s.isEmpty = true := by
        rw [List.isEmpty_iff]
        intro he
        subst he
        simp at hx
      rw [if_neg hne]
      have herr := chunkLoopE_word_err font max_len max_px_width s [] ⟨x, hx, hnone⟩
      cases hq : chunk_wordsE s max_len max_px_width font with
      | error e => simp [runOk]
      | ok cs =>
        rw [chunk_wordsE] at hq
        rw [hq] at herr
        simp [runOk] at herr
    · by_cases hemp : seg.isEmpty
      · rw [if_pos hemp]
        exact ih ⟨s, hss, x, hx, hnone⟩
      · rw [if_neg hemp]
        cases hq : chunk_wordsE seg max_len max_px_width font with
        | error e => simp [runOk]
        | ok cs =>
          have hrest := ih ⟨s, hss, x, hx, hnone⟩
          cases hrec : collectChunksE font max_len max_px_width rest with
          | error e => simp [runOk]
          | ok more =>
            rw [hrec] at hrest
            simp [runOk] at hrest

theorem collectChunksE_mem (font : String → ℚ × ℚ) (max_len : ℕ) (max_px_width : ℚ) :
    ∀ (doc chunks : List (List RawWord)),
      collectChunksE font max_len max_px_width doc = .ok chunks →
      ∀ seg ∈ doc, ∀ w ∈ seg, ∃ c ∈ chunks, w ∈ c := by
  intro doc
  induction doc with
  | nil =>
    intro chunks h seg hseg
    simp at hseg
  | cons seg0 rest ih =>
    intro chunks h seg hseg w hw
    simp only [collectChunksE] at h
    rcases List.mem_cons.mp hseg with rfl | hss
    · have hne : ¬ seg.isEmpty = true := by
        rw [List.isEmpty_iff]
        intro he
        subst he
        simp at hw
      rw [if_neg hne] at h
      cases hq : chunk_wordsE seg max_len max_px_width font with
      | error e => rw [hq] at h; simp at h
      | ok cs =>
        rw [hq] at h
        cases hrec : collectChunksE font max_len max_px_width rest with
        | error e => rw [hrec] at h; simp at h
        | ok more =>
          rw [hrec] at h
          have hflat : cs.flatten = seg := by
            simpa using chunkLoopE_flatten font max_len max_px_width seg [] cs hq
          obtain ⟨c, hc, hwc⟩ := List.mem_flatten.mp (by rw [hflat]; exact hw)
          refine ⟨c, ?_, hwc⟩
          rw [← Except.ok.inj h]
          exact List.mem_append_left _ hc
    · by_cases hemp : seg0.isEmpty
      · rw [if_pos hemp] at h
        exact ih chunks h seg hss w hw
      · rw [if_neg hemp] at h
        cases hq : chunk_wordsE seg0 max_len max_px_width font with
        | error e => rw [hq] at h; simp at h
        | ok cs =>
          rw [hq] at h
          cases hrec : collectChunksE font max_len max_px_width rest with
          | error e => rw [hrec] at h; simp at h
          | ok more =>
            rw [hrec] at h
            obtain ⟨c, hc, hwc⟩ := ih more hrec seg hss w hw
            refine ⟨c, ?_, hwc⟩
            rw [← Except.ok.inj h]
            exact List.mem_append_right _ hc

theorem boxLoopE_start_err (font : String → ℚ × ℚ) (W lw lh y_base pad : ℚ)
    (box_color : String) (last_end : ℚ) :
    ∀ (ws : List RawWord) (px : ℚ), (∃ w ∈ ws, w.start? = none) →
      runOk (boxLoopE font W lw lh y_base pad box_color last_end px ws) = false := by
  intro ws
  induction ws with
  | nil => intro px h; simp at h
  | cons wd rest ih =>
    intro px h
    simp only [boxLoopE]
    rcases h with ⟨x, hx, hnone⟩
    rcases List.mem_cons.mp hx with rfl | hxs
    · simp [getStart, hnone, runOk]
    · cases hsw : getStart wd with
      | error e => simp [hsw, runOk]
      | ok s_t =>
        cases rest with
        | nil => simp at hxs
        | cons nxt rs =>
          cases hsn : getStart nxt with
          | error e => simp [hsw, hsn, runOk]
          | ok e_t =>
            cases hwd : getWord wd with
            | error e => simp [hsw, hsn, hwd, runOk]
            | ok wtxt =>
              have hrest := ih (px + (font (wtxt ++ " ")).1) ⟨x, hxs, hnone⟩
              cases hrec : boxLoopE font W lw lh y_base pad box_color last_end
                  (px + (font (wtxt ++ " ")).1) (nxt :: rs) with
              | error e => simp [hsw, hsn, hwd, hrec, runOk]
              | ok more =>
                rw [hrec] at hrest
                simp [runOk] at hrest

theorem processChunkE_start_err (font : String → ℚ × ℚ)
    (cfg_font_size W y_base pad : ℚ) (box_color font_color : String)
    (chunk : List RawWord) (next? : Option (List RawWord))
    (h : ∃ w ∈ chunk, w.start? = none) :
    runOk (processChunkE font cfg_font_size W y_base pad box_color font_color
      chunk next?) = false := by
  simp only [processChunkE]
  cases hq : getWords chunk with
  | error e => simp [runOk]
  | ok ts =>
    cases hf : firstStartE chunk with
    | error e => simp [runOk]
    | ok st =>
      cases hl : lastEndE chunk with
      | error e => simp [runOk]
      | ok et0 =>
        have hbox := boxLoopE_start_err font W (font (String.intercalate " " ts)).1
          (font (String.intercalate " " ts)).2 y_base pad box_color et0 chunk 0 h
        cases next? with
        | none =>
          cases hb : boxLoopE font W (font (String.intercalate " " ts)).1
              (font (String.intercalate " " ts)).2 y_base pad box_color et0 0 chunk with
          | error e => simp [hq, hf, hl, hb, runOk]
          | ok boxes =>
            rw [hb] at hbox
            simp [runOk] at hbox
        | some nc =>
          cases hfn : firstStartE nc with
          | error e => simp [hq, hf, hl, hfn, runOk]
          | ok next_st =>
            cases hb : boxLoopE font W (font (String.intercalate " " ts)).1
                (font (String.intercalate " " ts)).2 y_base pad box_color et0 0 chunk with
            | error e => simp [hq, hf, hl, hfn, hb, runOk]
            | ok boxes =>
              rw [hb] at hbox
              simp [runOk] at hbox

theorem emitLoopE_start_err (font : String → ℚ × ℚ)
    (cfg_font_size W y_base pad : ℚ) (box_color font_color : String) :
    ∀ chunks : List (List RawWord), (∃ c ∈ chunks, ∃ w ∈ c, w.start? = none) →
      runOk (emitLoopE font cfg_font_size W y_base pad box_color font_color
        chunks) = false := by
  intro chunks
  induction chunks with
  | nil => intro h; simp at h
  | cons c rest ih =>
    intro h
    simp only [emitLoopE]
    rcases h with ⟨c0, hc0, x, hx, hnone⟩
    rcases List.mem_cons.mp hc0 with rfl | hcs
    · have hpc := processChunkE_start_err font cfg_font_size W y_base pad box_color
        font_color c0 rest.head? ⟨x, hx, hnone⟩
      cases hp : processChunkE font cfg_font_size W y_base pad box_color font_color
          c0 rest.head? with
      | error e => simp [runOk]
      | ok ds =>
        rw [hp] at hpc
        simp [runOk] at hpc
    · cases hp : processChunkE font cfg_font_size W y_base pad box_color font_color
          c rest.head? with
      | error e => simp [runOk]
      | ok ds =>
        have hrest := ih ⟨c0, hcs, x, hx, hnone⟩
        cases hrec : emitLoopE font cfg_font_size W y_base pad box_color font_color
            rest with
        | error e => simp [runOk]
        | ok more =>
          rw [hrec] at hrest
          simp [runOk] at hrest

/-- C5 amended: a word object missing `word` or `start` always aborts the
run with a `KeyError` before anything is written (chunking reads every
word's `word`; the emitter reads every word's `start`); a missing `end` is
only detected when the word is the last word of a produced line, since
`chunk[-1]['end']` is the only `end` lookup. -/
theorem mainRun_missing_required_fails (probe : Except String (ℚ × ℚ))
    (fontLoad : Except String (String → ℚ × ℚ)) (cfg : Config)
    (doc : List (List RawWord))
    (h : ∃ seg ∈ doc, ∃ w ∈ seg, w.word? = none ∨ w.start? = none) :
    runOk (mainRun probe (.ok doc) fontLoad cfg).1 = false ∧
      (mainRun probe (.ok doc) fontLoad cfg).2 = [] := by
  have hmain : runOk (mainE probe (.ok doc) fontLoad cfg) = false := by
    cases probe with
    | error e => simp [mainE, runOk]
    | ok WH =>
      obtain ⟨W, H⟩ := WH
      cases fontLoad with
      | error e => simp [mainE, runOk]
      | ok font =>
        simp only [mainE]
        by_cases hword : ∃ seg ∈ doc, ∃ w ∈ seg, w.word? = none
        · have hcerr := collectChunksE_word_err font cfg.max_words
            (W * (cfg.max_width / 100)) doc hword
          cases hc : collectChunksE font cfg.max_words (W * (cfg.max_width / 100)) doc with
          | error e => simp [runOk]
          | ok chunks =>
            rw [hc] at hcerr
            simp [runOk] at hcerr
        · obtain ⟨seg, hseg, w, hw, hcase⟩ := h
          have hstart : w.start? = none := by
            rcases hcase with hw0 | hs0
            · exact absurd ⟨seg, hseg, w, hw, hw0⟩ hword
            · exact hs0
          cases hc : collectChunksE font cfg.max_words (W * (cfg.max_width / 100)) doc with
          | error e => simp [runOk]
          | ok chunks =>
            obtain ⟨c, hcmem, hwc⟩ := collectChunksE_mem font cfg.max_words
              (W * (cfg.max_width / 100)) doc chunks hc seg hseg w hw
            exact emitLoopE_start_err font cfg.font_size W _ cfg.pad cfg.box_color
              cfg.font_color chunks ⟨c, hcmem, w, hwc, hstart⟩
  cases hm : mainE probe (.ok doc) fontLoad cfg with
  | error e => simp [mainRun, hm, runOk]
  | ok filters =>
    rw [hm] at hmain
    simp [runOk] at hmain

def cfgDemo : Config := ⟨60, some 10, 30, 5, 90, 10, "0x00A5FF", "white"⟩

def badDoc : List (List RawWord) := [[⟨some "a", none, some 1⟩]]

/-- Witness for C5 amended: a document whose single word lacks `start`. -/
theorem mainRun_missing_required_fails_witness :
    runOk (mainRun (.ok (100, 100)) (.ok badDoc) (.ok zeroFont) cfgDemo).1 = false :=
  (mainRun_missing_required_fails (.ok (100, 100)) (.ok zeroFont) cfgDemo badDoc
    ⟨[⟨some "a", none, some 1⟩], by simp [badDoc], ⟨some "a", none, some 1⟩,
      by simp, Or.inr rfl⟩).1

def looseDoc : List (List RawWord) :=
  [[⟨some "a", some 0, none⟩, ⟨some "b", some 1, some 2⟩]]

/-- Counterexample to C5 as stated: in this document the first word has no
`end` field, yet the run succeeds and writes its output file — the field is
never read because the word is not the last word of its line, so a missing
required field does not always fail the run. -/
theorem mainRun_missing_end_ok :
    (∃ seg ∈ looseDoc, ∃ w ∈ seg, w.end? = none) ∧
      runOk (mainRun (.ok (100, 100)) (.ok looseDoc) (.ok zeroFont) cfgDemo).1 = true ∧
      (mainRun (.ok (100, 100)) (.ok looseDoc) (.ok zeroFont) cfgDemo).2.length = 1 := by
  have e1 : endsPunct "a" = false := by decide
  have e2 : endsPunct "b" = false := by decide
  refine ⟨⟨[⟨some "a", some 0, none⟩, ⟨some "b", some 1, some 2⟩], by simp [looseDoc],
    ⟨some "a", some 0, none⟩, by simp, rfl⟩, ?_, ?_⟩
  · norm_num [mainRun, mainE, collectChunksE, chunk_wordsE, chunkLoopE, getWords,
      getWord, getStart, getEnd, emitLoopE, processChunkE, boxLoopE, firstStartE,
      lastEndE, looseDoc, cfgDemo, zeroFont, e1, e2, runOk]
  · norm_num [mainRun, mainE, collectChunksE, chunk_wordsE, chunkLoopE, getWords,
      getWord, getStart, getEnd, emitLoopE, processChunkE, boxLoopE, firstStartE,
      lastEndE, looseDoc, cfgDemo, zeroFont, e1, e2, runOk]

/-- C8: a run performs at most one write to the output program file; a run
that fails writes nothing, and a successful run performs exactly one write
whose payload is the fully computed directive list. -/
theorem mainRun_write_once (probe : Except String (ℚ × ℚ))
    (jsonLoad : Except String (List (List RawWord)))
    (fontLoad : Except String (String → ℚ × ℚ)) (cfg : Config) :
    (mainRun probe jsonLoad fontLoad cfg).2.length ≤ 1 ∧
      (runOk (mainRun probe jsonLoad fontLoad cfg).1 = false →
        (mainRun probe jsonLoad fontLoad cfg).2 = []) ∧
      (runOk (mainRun probe jsonLoad fontLoad cfg).1 = true →
        ∃ filters, mainE probe jsonLoad fontLoad cfg = .ok filters ∧
          (mainRun probe jsonLoad fontLoad cfg).2 = [filters]) := by
  cases h : mainE probe jsonLoad fontLoad cfg with
  | error e => simp [mainRun, h, runOk]
  | ok filters => simp [mainRun, h, runOk]

/-- Witness for C8: a failed probe writes nothing. -/
theorem mainRun_write_once_witness :
    (mainRun (.error "ProbeError") (.ok []) (.ok zeroFont) cfgDemo).2 = [] :=
  (mainRun_write_once (.error "ProbeError") (.ok []) (.ok zeroFont) cfgDemo).2.1
    (by simp [mainRun, mainE, runOk])

end Karaoke
